import Mathlib

/-!
Verification of the segmod phase-accumulator sequencing synthesizer
(`src/main.rs`).

Modelling conventions.  `f64` values are embedded as exact rationals `ℚ`:
every floating-point operation the claims exercise (addition of phase
increments, comparisons against `0.5`/`1.0`, `floor`-based modulo,
min/max clipping, scaling by `8388607`) is stated over `ℚ`.  The
transcendental shapes (`sine`, `cosine`) are embedded over `ℝ` via
`Real.sin`/`Real.cos`; no claim evaluates them numerically.  Rust panics
(out-of-bounds slice indexing, remainder by zero, which abort the process
before any output is written) are modelled as the `SynthResult.panic`
result carrying the panic message.  The `while` loop of `synthesize` is
embedded with an explicit fuel parameter; `SynthResult.outOfFuel` marks
fuel exhaustion, and termination claims are stated as the existence of
sufficient fuel.
-/

/-- The `Wave` enum of the source: waveform shapes, `DC` carrying a
constant amplitude. -/
inductive Wave
  | Sine
  | Cosine
  | Pulse
  | Triangle
  | SawUp
  | SawDown
  | DC (v : ℚ)
deriving DecidableEq

/-- `fn fmod(numer, denom) = numer - (numer/denom).floor() * denom`. -/
def fmod (numer denom : ℚ) : ℚ :=
  numer - ⌊numer / denom⌋ * denom

/-- `fn lin_interp(x, y1, y2) = y1 + ((y2 - y1) * x)`. -/
def lin_interp (x y1 y2 : ℚ) : ℚ :=
  y1 + ((y2 - y1) * x)

/-- `fn pulse`: compares the raw sum `phase + phase_offset` against `0.5`
without any wrapping. -/
def pulse (phase phase_offset : ℚ) : ℚ :=
  if phase + phase_offset < 1/2 then 1 else -1

/-- `fn triangle`: piecewise-linear ramp over the wrapped phase. -/
def triangle (phase phase_offset : ℚ) : ℚ :=
  let ph := fmod (phase + phase_offset) 1
  if ph ≤ 1/4 then lin_interp (ph / (1/4)) 0 1
  else if ph ≤ 3/4 then lin_interp ((ph - 1/4) / (1/2)) 1 (-1)
  else lin_interp ((ph - 3/4) / (1/4)) (-1) 0

/-- `fn saw_up`: rising sawtooth over the wrapped phase. -/
def saw_up (phase phase_offset : ℚ) : ℚ :=
  let ph := fmod (phase + phase_offset) 1
  ph * 2 - 1

/-- `fn saw_down`: falling sawtooth over the wrapped phase. -/
def saw_down (phase phase_offset : ℚ) : ℚ :=
  let ph := fmod (phase + phase_offset) 1
  (ph * 2 - 1) * (-1)

/-- `fn sine`: `sin((phase + phase_offset) * (PI * 2.0))`. -/
noncomputable def sine (phase phase_offset : ℚ) : ℝ :=
  Real.sin (((phase : ℝ) + (phase_offset : ℝ)) * (Real.pi * 2))

/-- `fn cosine`: `cos((phase + phase_offset) * (PI * 2.0))`. -/
noncomputable def cosine (phase phase_offset : ℚ) : ℝ :=
  Real.cos (((phase : ℝ) + (phase_offset : ℝ)) * (Real.pi * 2))

/-- `fn wave`: dispatch on the waveform shape.  The piecewise shapes are
exact rationals, coerced into `ℝ` so that all shapes share one amplitude
type. -/
noncomputable def wave : Wave → ℚ → ℚ → ℝ
  | Wave.Sine, p, o => sine p o
  | Wave.Cosine, p, o => cosine p o
  | Wave.Pulse, p, o => (pulse p o : ℝ)
  | Wave.Triangle, p, o => (triangle p o : ℝ)
  | Wave.SawUp, p, o => (saw_up p o : ℝ)
  | Wave.SawDown, p, o => (saw_down p o : ℝ)
  | Wave.DC dc, _, _ => (dc : ℝ)

/-- `fn freq_to_phase_inc(freq, sample_rate) = freq / sample_rate as f64`. -/
def freq_to_phase_inc (freq : ℚ) (sample_rate : ℕ) : ℚ :=
  freq / (sample_rate : ℚ)

/-- `fn freq_to_sample_length(freq, sample_rate) = sample_rate as f64 / freq`. -/
def freq_to_sample_length (freq : ℚ) (sample_rate : ℕ) : ℚ :=
  (sample_rate : ℚ) / freq

/-- Message of the Rust panic raised by slice indexing `xs[0]` on an
empty slice (lines 167-168 of the source). -/
def oobMsg : String := "index out of bounds: the len is 0 but the index is 0"

/-- Message of the Rust panic raised by `i % xs.len()` when the slice is
empty (lines 172, 181-184 of the source). -/
def remainderMsg : String := "attempt to calculate the remainder with a divisor of zero"

/-- The frequency selection `frequencies[i % frequencies.len()]` of the
source (line 181): Rust panics on the remainder when the slice is empty,
otherwise the modulo index is in bounds. -/
def freqAt (frequencies : List ℚ) (i : ℕ) : Except String ℚ :=
  if frequencies.length = 0 then Except.error remainderMsg
  else Except.ok (frequencies.getD (i % frequencies.length) 0)

/-- The waveform selection `waves[i % waves.len()]` of the source
(line 182). -/
def waveAt (waves : List Wave) (i : ℕ) : Except String Wave :=
  if waves.length = 0 then Except.error remainderMsg
  else Except.ok (waves.getD (i % waves.length) Wave.Sine)

/-- The phase-offset selection `phase_offsets.map_or(0.0, |p| p[i % p.len()])`
of the source (lines 172 and 184): an absent sequence yields `0.0`; a
present empty sequence hits the remainder-by-zero panic. -/
def phaseOffsetAt (phase_offsets : Option (List ℚ)) (i : ℕ) : Except String ℚ :=
  match phase_offsets with
  | none => Except.ok 0
  | some p =>
      if p.length = 0 then Except.error remainderMsg
      else Except.ok (p.getD (i % p.length) 0)

/-- `n = max(ph_length, max(frequencies.len(), waves.len()))`
(lines 164-165 of the source), where `ph_length` is the length of the
phase-offset sequence when present and `0` when absent. -/
def nSteps (frequencies : List ℚ) (waves : List Wave)
    (phase_offsets : Option (List ℚ)) : ℕ :=
  max ((phase_offsets.map List.length).getD 0)
    (max frequencies.length waves.length)

/-- One recorded output sample: the waveform, phase and phase offset the
sample is evaluated at (the pushed value is `wave w ph off`). -/
abbrev Sample := Wave × ℚ × ℚ

/-- The mutable loop state of `synthesize` (lines 167-172). -/
structure SynthState where
  i : ℕ
  cur_phase : ℚ
  last_phase : ℚ
  cur_phase_inc : ℚ
  cur_wave : Wave
  phase_offset : ℚ
deriving DecidableEq

/-- Result of a synthesis run: normal return with the recorded samples, a
Rust panic aborting the process, or exhaustion of the loop fuel (the
Rust loop has no fuel; `outOfFuel` only marks that the chosen fuel bound
was insufficient). -/
inductive SynthResult
  | ok (samples : List Sample)
  | panic (msg : String)
  | outOfFuel
deriving DecidableEq

/-- The step-advance condition of line 178 of the source:
`(cur_phase >= 1.0) || (breakpoints == 2 && cur_phase >= 0.5 && last_phase < 0.5)`,
applied to the freshly incremented phase. -/
abbrev advanceCond (breakpoints : ℕ) (phase' last_phase : ℚ) : Prop :=
  1 ≤ phase' ∨ (breakpoints = 2 ∧ 1/2 ≤ phase' ∧ last_phase < 1/2)

/-- The `while i < n` loop of `synthesize` (lines 174-186), with explicit
fuel.  Each iteration pushes one sample, increments the phase, and on an
advance wraps the phase with `fmod`, records `last_phase` post-wrap, and
reselects frequency, waveform and offset by the shared counter modulo
each sequence's own length. -/
def synthLoop (frequencies : List ℚ) (waves : List Wave) (breakpoints : ℕ)
    (sample_rate : ℕ) (phase_offsets : Option (List ℚ)) (n : ℕ) :
    ℕ → SynthState → SynthResult
  | 0, st => if st.i < n then SynthResult.outOfFuel else SynthResult.ok []
  | fuel + 1, st =>
    if st.i < n then
      if advanceCond breakpoints (st.cur_phase + st.cur_phase_inc) st.last_phase then
        match freqAt frequencies (st.i + 1), waveAt waves (st.i + 1),
            phaseOffsetAt phase_offsets (st.i + 1) with
        | Except.ok f, Except.ok w, Except.ok off =>
          match synthLoop frequencies waves breakpoints sample_rate phase_offsets n fuel
              ⟨st.i + 1, fmod (st.cur_phase + st.cur_phase_inc) 1,
                fmod (st.cur_phase + st.cur_phase_inc) 1,
                freq_to_phase_inc f sample_rate, w, off⟩ with
          | SynthResult.ok rest =>
              SynthResult.ok ((st.cur_wave, st.cur_phase, st.phase_offset) :: rest)
          | r => r
        | Except.error e, _, _ => SynthResult.panic e
        | Except.ok _, Except.error e, _ => SynthResult.panic e
        | Except.ok _, Except.ok _, Except.error e => SynthResult.panic e
      else
        match synthLoop frequencies waves breakpoints sample_rate phase_offsets n fuel
            { st with cur_phase := st.cur_phase + st.cur_phase_inc } with
        | SynthResult.ok rest =>
            SynthResult.ok ((st.cur_wave, st.cur_phase, st.phase_offset) :: rest)
        | r => r
    else SynthResult.ok []

/-- `fn synthesize` (lines 157-189).  The initial indexings `waves[0]`
(line 167) and `frequencies[0]` (line 168) panic on an empty slice, in
that order, before the loop; the initial phase offset (line 172) then
panics on a present-but-empty offsets sequence. -/
def synthesize (frequencies : List ℚ) (waves : List Wave) (breakpoints : ℕ)
    (sample_rate : ℕ) (phase_offsets : Option (List ℚ)) (fuel : ℕ) : SynthResult :=
  match waves, frequencies with
  | [], _ => SynthResult.panic oobMsg
  | _ :: _, [] => SynthResult.panic oobMsg
  | w0 :: ws, f0 :: fs =>
    match phaseOffsetAt phase_offsets 0 with
    | Except.error e => SynthResult.panic e
    | Except.ok off =>
        synthLoop (f0 :: fs) (w0 :: ws) breakpoints sample_rate phase_offsets
          (nSteps (f0 :: fs) (w0 :: ws) phase_offsets) fuel
          ⟨0, 0, 0, freq_to_phase_inc f0 sample_rate, w0, off⟩

/-- Number of samples of a normal run, `none` for a panic or fuel
exhaustion. -/
def SynthResult.sampleCount : SynthResult → Option ℕ
  | SynthResult.ok l => some l.length
  | _ => none

/-- The amplitude values of the recorded samples: each pushed output value
is the evaluator applied to the recorded waveform, phase and offset
(line 175 of the source). -/
noncomputable def renderSamples (l : List Sample) : List ℝ :=
  l.map fun s => wave s.1 s.2.1 s.2.2

/-- The clipping `sample.min(1.0).max(-1.0)` of `write_sf` (line 205). -/
def clipSample (s : ℚ) : ℚ :=
  max (min s 1) (-1)

/-- Rust's `f64 as i32` conversion truncates toward zero. -/
def truncToward0 (x : ℚ) : ℤ :=
  if 0 ≤ x then ⌊x⌋ else ⌈x⌉

/-- Rust's `f64 as i32` conversion saturates at the `i32` bounds. -/
def i32Sat (x : ℤ) : ℤ :=
  max (-(2 ^ 31)) (min (2 ^ 31 - 1) x)

/-- The 24-bit PCM value written per sample by `write_sf` (line 205):
`(sample.min(1.0).max(-1.0) * 8388607.0) as i32`. -/
def quantize24 (s : ℚ) : ℤ :=
  i32Sat (truncToward0 (clipSample s * 8388607))

/-- Modelled from the spec: the quantization convention the specification
states for the encoder, `round(clip(sample, -1.0, 1.0) * (2^23 - 1))`,
rounding to the nearest integer.  Kept separate from `quantize24` (the
code's behaviour) to compare the two. -/
def quantize24Spec (s : ℚ) : ℤ :=
  round (clipSample s * (2 ^ 23 - 1))

/-! ## Unfolding lemmas for the synthesis loop -/

theorem synthLoop_done (fs : List ℚ) (ws : List Wave) (bp sr : ℕ)
    (po : Option (List ℚ)) (n fuel : ℕ) (st : SynthState) (h : ¬ st.i < n) :
    synthLoop fs ws bp sr po n fuel st = SynthResult.ok [] := by
  cases fuel <;> simp [synthLoop, h]

theorem synthLoop_noadv (fs : List ℚ) (ws : List Wave) (bp sr : ℕ)
    (po : Option (List ℚ)) (n fuel : ℕ) (st : SynthState) (h1 : st.i < n)
    (h2 : ¬ advanceCond bp (st.cur_phase + st.cur_phase_inc) st.last_phase) :
    synthLoop fs ws bp sr po n (fuel + 1) st =
      match synthLoop fs ws bp sr po n fuel
          { st with cur_phase := st.cur_phase + st.cur_phase_inc } with
      | SynthResult.ok rest =>
          SynthResult.ok ((st.cur_wave, st.cur_phase, st.phase_offset) :: rest)
      | r => r := by
  simp [synthLoop, h1, h2]

theorem synthLoop_adv (fs : List ℚ) (ws : List Wave) (bp sr : ℕ)
    (po : Option (List ℚ)) (n fuel : ℕ) (st : SynthState) (f : ℚ) (w : Wave)
    (off : ℚ) (h1 : st.i < n)
    (h2 : advanceCond bp (st.cur_phase + st.cur_phase_inc) st.last_phase)
    (hf : freqAt fs (st.i + 1) = Except.ok f)
    (hw : waveAt ws (st.i + 1) = Except.ok w)
    (hoff : phaseOffsetAt po (st.i + 1) = Except.ok off) :
    synthLoop fs ws bp sr po n (fuel + 1) st =
      match synthLoop fs ws bp sr po n fuel
          ⟨st.i + 1, fmod (st.cur_phase + st.cur_phase_inc) 1,
            fmod (st.cur_phase + st.cur_phase_inc) 1,
            freq_to_phase_inc f sr, w, off⟩ with
      | SynthResult.ok rest =>
          SynthResult.ok ((st.cur_wave, st.cur_phase, st.phase_offset) :: rest)
      | r => r := by
  simp [synthLoop, h1, h2, hf, hw, hoff]

theorem synthLoop_skip (fs : List ℚ) (ws : List Wave) (bp sr : ℕ)
    (po : Option (List ℚ)) (n : ℕ) :
    ∀ (j : ℕ) (st : SynthState) (fuel : ℕ), st.i < n →
      (∀ m : ℕ, m < j →
        ¬ advanceCond bp (st.cur_phase + ((m : ℚ) + 1) * st.cur_phase_inc)
          st.last_phase) →
      synthLoop fs ws bp sr po n (j + fuel) st =
        match synthLoop fs ws bp sr po n fuel
            { st with cur_phase := st.cur_phase + (j : ℚ) * st.cur_phase_inc } with
        | SynthResult.ok rest =>
            SynthResult.ok
              (((List.range j).map fun (m : ℕ) =>
                ((st.cur_wave, st.cur_phase + (m : ℚ) * st.cur_phase_inc,
                  st.phase_offset) : Sample)) ++ rest)
        | r => r := by
  intro j
  induction j with
  | zero =>
    intro st fuel h1 h
    have hst : ({ st with cur_phase := st.cur_phase + ((0 : ℕ) : ℚ) * st.cur_phase_inc } : SynthState) = st := by
      have hq : st.cur_phase + ((0 : ℕ) : ℚ) * st.cur_phase_inc = st.cur_phase := by
        push_cast
        ring
      rw [hq]
    rw [hst]
    simp only [Nat.zero_add, List.range_zero, List.map_nil, List.nil_append]
    cases hres : synthLoop fs ws bp sr po n fuel st <;> simp [hres]
  | succ j ih =>
    intro st fuel h1 h
    have h0 : ¬ advanceCond bp (st.cur_phase + st.cur_phase_inc) st.last_phase := by
      have h0' := h 0 (Nat.succ_pos j)
      have hq : st.cur_phase + (((0 : ℕ) : ℚ) + 1) * st.cur_phase_inc
          = st.cur_phase + st.cur_phase_inc := by
        push_cast
        ring
      rwa [hq] at h0'
    have harith : j + 1 + fuel = (j + fuel) + 1 := by omega
    rw [harith, synthLoop_noadv fs ws bp sr po n (j + fuel) st h1 h0]
    have hih := ih { st with cur_phase := st.cur_phase + st.cur_phase_inc } fuel h1
      (by
        intro m hm
        have hmh := h (m + 1) (by omega)
        have hq : st.cur_phase + (((m + 1 : ℕ) : ℚ) + 1) * st.cur_phase_inc
            = st.cur_phase + st.cur_phase_inc + ((m : ℚ) + 1) * st.cur_phase_inc := by
          push_cast
          ring
        rw [hq] at hmh
        exact hmh)
    dsimp only at hih
    rw [hih]
    have hq2 : st.cur_phase + st.cur_phase_inc + (j : ℚ) * st.cur_phase_inc
        = st.cur_phase + ((j + 1 : ℕ) : ℚ) * st.cur_phase_inc := by
      push_cast
      ring
    rw [hq2]
    cases hres : synthLoop fs ws bp sr po n fuel
        { st with cur_phase := st.cur_phase + ((j + 1 : ℕ) : ℚ) * st.cur_phase_inc } with
    | ok rest =>
      simp only
      have hfun : ((fun (m : ℕ) =>
            ((st.cur_wave, st.cur_phase + (m : ℚ) * st.cur_phase_inc,
              st.phase_offset) : Sample)) ∘ Nat.succ)
          = fun (m : ℕ) =>
            ((st.cur_wave, st.cur_phase + st.cur_phase_inc + (m : ℚ) * st.cur_phase_inc,
              st.phase_offset) : Sample) := by
        funext m
        simp only [Function.comp]
        have hq3 : st.cur_phase + ((Nat.succ m : ℕ) : ℚ) * st.cur_phase_inc
            = st.cur_phase + st.cur_phase_inc + (m : ℚ) * st.cur_phase_inc := by
          push_cast
          ring
        rw [hq3]
      rw [List.range_succ_eq_map, List.map_cons, List.map_map, hfun]
      simp
    | panic msg => simp only
    | outOfFuel => simp only

theorem synth_single100_run (bp j fuel : ℕ) (hfuel : j + 1 ≤ fuel)
    (hno : ∀ m : ℕ, m < j →
      ¬ advanceCond bp ((0 : ℚ) + ((m : ℚ) + 1) * (1/480)) 0)
    (hadv : advanceCond bp ((0 : ℚ) + (j : ℚ) * (1/480) + 1/480) 0) :
    (synthesize [100] [Wave.Sine] bp 48000 none fuel).sampleCount = some (j + 1) := by
  obtain ⟨k, rfl⟩ : ∃ k, fuel = j + (k + 1) := ⟨fuel - (j + 1), by omega⟩
  have hinc : freq_to_phase_inc 100 48000 = 1/480 := by
    norm_num [freq_to_phase_inc]
  have hsynth : synthesize [100] [Wave.Sine] bp 48000 none (j + (k + 1))
      = synthLoop [100] [Wave.Sine] bp 48000 none 1 (j + (k + 1))
          ⟨0, 0, 0, 1/480, Wave.Sine, 0⟩ := by
    simp [synthesize, phaseOffsetAt, nSteps, hinc]
  rw [hsynth]
  rw [synthLoop_skip [100] [Wave.Sine] bp 48000 none 1 j
      ⟨0, 0, 0, 1/480, Wave.Sine, 0⟩ (k + 1) (by norm_num) hno]
  have hone : synthLoop [100] [Wave.Sine] bp 48000 none 1 (k + 1)
      { i := 0, cur_phase := (0 : ℚ) + (j : ℚ) * (1/480), last_phase := 0,
        cur_phase_inc := 1/480, cur_wave := Wave.Sine, phase_offset := 0 }
      = SynthResult.ok [(Wave.Sine, (0 : ℚ) + (j : ℚ) * (1/480), 0)] := by
    rw [synthLoop_adv [100] [Wave.Sine] bp 48000 none 1 k
        ⟨0, (0 : ℚ) + (j : ℚ) * (1/480), 0, 1/480, Wave.Sine, 0⟩ 100 Wave.Sine 0
        (by norm_num) hadv
        (by simp [freqAt]) (by simp [waveAt]) (by simp [phaseOffsetAt])]
    rw [synthLoop_done [100] [Wave.Sine] bp 48000 none 1 k
        ⟨0 + 1, fmod ((0 : ℚ) + (j : ℚ) * (1/480) + 1/480) 1,
          fmod ((0 : ℚ) + (j : ℚ) * (1/480) + 1/480) 1,
          freq_to_phase_inc 100 48000, Wave.Sine, 0⟩ (by norm_num)]
  rw [hone]
  simp [SynthResult.sampleCount]

/-! ## Claims -/

/-- Claim C3: for `frequencies=[100]`, `waveforms=[Sine]`,
`breakpoints_per_cycle=1`, `sample_rate=48000` and absent phase offsets,
the run produces exactly 480 samples (for any fuel covering the run):
the loop ends at the first full-cycle crossing, when the step index
reaches `n = 1`. -/
theorem synthesize_single_sine_480 (fuel : ℕ) (hfuel : 480 ≤ fuel) :
    (synthesize [100] [Wave.Sine] 1 48000 none fuel).sampleCount = some 480
    ∧ nSteps [100] [Wave.Sine] none = 1 := by
  constructor
  · have hno : ∀ m : ℕ, m < 479 →
        ¬ advanceCond 1 ((0 : ℚ) + ((m : ℚ) + 1) * (1/480)) 0 := by
      intro m hm hca
      rcases hca with hca | ⟨h12, _⟩
      · have hlt : ((m : ℚ) + 1) * (1/480) < 1 := by
          rw [mul_one_div, div_lt_one (by norm_num)]
          have hmq : (m : ℚ) < 479 := by exact_mod_cast hm
          linarith
        linarith
      · exact absurd h12 (by norm_num)
    have hadv : advanceCond 1 ((0 : ℚ) + ((479 : ℕ) : ℚ) * (1/480) + 1/480) 0 := by
      left
      have hq : (0 : ℚ) + ((479 : ℕ) : ℚ) * (1/480) + 1/480 = 1 := by
        push_cast
        norm_num
      rw [hq]
    have h := synth_single100_run 1 479 fuel (by omega) hno hadv
    norm_num at h
    exact h
  · simp [nSteps]

/-- Witness for C3 at the concrete fuel 480. -/
theorem synthesize_single_sine_480_witness :
    (synthesize [100] [Wave.Sine] 1 48000 none 480).sampleCount = some 480
    ∧ nSteps [100] [Wave.Sine] none = 1 :=
  synthesize_single_sine_480 480 (by norm_num)

/-- Claim C4: same input with `breakpoints_per_cycle=2` produces exactly
240 samples: the half-cycle breakpoint (`phase >= 0.5` with
`last_phase < 0.5`) fires before the full-cycle crossing. -/
theorem synthesize_single_sine_240 (fuel : ℕ) (hfuel : 240 ≤ fuel) :
    (synthesize [100] [Wave.Sine] 2 48000 none fuel).sampleCount = some 240 := by
  have hno : ∀ m : ℕ, m < 239 →
      ¬ advanceCond 2 ((0 : ℚ) + ((m : ℚ) + 1) * (1/480)) 0 := by
    intro m hm hca
    have hmq : (m : ℚ) < 239 := by exact_mod_cast hm
    have hlt : ((m : ℚ) + 1) * (1/480) < 1/2 := by
      rw [mul_one_div, div_lt_div_iff₀ (by norm_num) (by norm_num)]
      linarith
    rcases hca with hca | ⟨_, hhalf, _⟩
    · linarith
    · linarith
  have hadv : advanceCond 2 ((0 : ℚ) + ((239 : ℕ) : ℚ) * (1/480) + 1/480) 0 := by
    right
    refine ⟨rfl, ?_, by norm_num⟩
    have hq : (0 : ℚ) + ((239 : ℕ) : ℚ) * (1/480) + 1/480 = 1/2 := by
      push_cast
      norm_num
    rw [hq]
  have h := synth_single100_run 2 239 fuel (by omega) hno hadv
  norm_num at h
  exact h

/-- Witness for C4 at the concrete fuel 240. -/
theorem synthesize_single_sine_240_witness :
    (synthesize [100] [Wave.Sine] 2 48000 none 240).sampleCount = some 240 :=
  synthesize_single_sine_240 240 (by norm_num)

/-- Claim C1: if the frequencies sequence or the waveforms sequence is
empty, `synthesize` aborts with the descriptive index-out-of-bounds
panic raised by the initial `waves[0]`/`frequencies[0]` indexing, before
the per-sample loop runs and before any samples are produced (the result
carries no samples and no division by zero occurs). -/
theorem synthesize_empty_input_fails (fs : List ℚ) (ws : List Wave)
    (bp sr fuel : ℕ) (po : Option (List ℚ)) (h : fs = [] ∨ ws = []) :
    synthesize fs ws bp sr po fuel = SynthResult.panic oobMsg := by
  rcases h with h | h
  · subst h
    cases ws <;> simp [synthesize]
  · subst h
    cases fs <;> simp [synthesize]

/-- Witness for C1: empty frequencies with non-empty waveforms. -/
theorem synthesize_empty_input_fails_witness :
    synthesize [] [Wave.Sine] 1 48000 none 5 = SynthResult.panic oobMsg :=
  synthesize_empty_input_fails [] [Wave.Sine] 1 48000 5 none (Or.inl rfl)

/-- Claim C2: the Pulse shape compares the raw unwrapped sum
`phase + offset` with `0.5`: it returns `1.0` when the sum is strictly
below `0.5` and `-1.0` otherwise, with no modulo-1 wrapping (at
`phase = -3/10` the raw sum is below `0.5` although its wrapped value is
`7/10`, and the result is `1`); in particular `pulse 0.4 0 = 1` and
`pulse 0.6 0 = -1`, and the evaluator dispatches `Pulse` to `pulse`. -/
theorem pulse_raw_threshold :
    (∀ p o : ℚ, p + o < 1/2 → pulse p o = 1)
    ∧ (∀ p o : ℚ, ¬ p + o < 1/2 → pulse p o = -1)
    ∧ pulse (2/5) 0 = 1 ∧ pulse (3/5) 0 = -1
    ∧ (pulse (-(3/10)) 0 = 1 ∧ fmod (-(3/10) + 0) 1 = 7/10 ∧ ¬ fmod (-(3/10) + 0) 1 < 1/2)
    ∧ (∀ p o : ℚ, wave Wave.Pulse p o = ((pulse p o : ℚ) : ℝ)) := by
  refine ⟨?_, ?_, ?_, ?_, ⟨?_, ?_, ?_⟩, ?_⟩
  · intro p o h
    simp only [pulse]
    rw [if_pos h]
  · intro p o h
    simp only [pulse]
    rw [if_neg h]
  · norm_num [pulse]
  · norm_num [pulse]
  · norm_num [pulse]
  · rw [show (-(3/10) + 0 : ℚ) = -(3/10) by norm_num]
    rw [fmod, show ⌊(-(3/10) : ℚ) / 1⌋ = -1 by norm_num [Int.floor_eq_iff]]
    norm_num
  · rw [show (-(3/10) + 0 : ℚ) = -(3/10) by norm_num]
    rw [fmod, show ⌊(-(3/10) : ℚ) / 1⌋ = -1 by norm_num [Int.floor_eq_iff]]
    norm_num
  · intro p o
    rfl

/-- Witness for C2 at the spec's concrete inputs. -/
theorem pulse_raw_threshold_witness : pulse (2/5) 0 = 1 ∧ pulse (3/5) 0 = -1 :=
  ⟨pulse_raw_threshold.1 (2/5) 0 (by norm_num),
    pulse_raw_threshold.2.1 (3/5) 0 (by norm_num)⟩

/-- Claim C7: the modulo-1 operation `fmod x 1 = x - floor(x/1)*1` used
for phase wrapping always yields a remainder in `[0, 1)` (stated over
the exact rationals embedding the finite doubles). -/
theorem fmod_one_nonneg_lt_one (x : ℚ) : 0 ≤ fmod x 1 ∧ fmod x 1 < 1 := by
  have hx : fmod x 1 = x - ⌊x⌋ := by
    simp [fmod]
  rw [hx]
  constructor
  · have := Int.floor_le x
    linarith
  · have := Int.lt_floor_add_one x
    linarith

/-- Witness for C7 at `x = -3/2`. -/
theorem fmod_one_nonneg_lt_one_witness :
    0 ≤ fmod (-(3/2)) 1 ∧ fmod (-(3/2)) 1 < 1 :=
  fmod_one_nonneg_lt_one (-(3/2))

/-- Claim C5: the three sequences are never zipped: on every step advance
the loop reselects `frequencies[(i+1) mod len fs]`,
`waves[(i+1) mod len ws]` and `phase_offsets[(i+1) mod len ps]`, each
modulo its own length, and the loop bound is the max of the three
lengths; with lengths 2, 3, 5 and step index 4 the selected indices are
0, 1 and 4. -/
theorem independent_modulo_cycling :
    (∀ (fs : List ℚ) (ws : List Wave) (ps : List ℚ) (bp sr n fuel : ℕ)
      (st : SynthState), fs ≠ [] → ws ≠ [] → ps ≠ [] → st.i < n →
      advanceCond bp (st.cur_phase + st.cur_phase_inc) st.last_phase →
      synthLoop fs ws bp sr (some ps) n (fuel + 1) st =
        match synthLoop fs ws bp sr (some ps) n fuel
            ⟨st.i + 1, fmod (st.cur_phase + st.cur_phase_inc) 1,
              fmod (st.cur_phase + st.cur_phase_inc) 1,
              freq_to_phase_inc (fs.getD ((st.i + 1) % fs.length) 0) sr,
              ws.getD ((st.i + 1) % ws.length) Wave.Sine,
              ps.getD ((st.i + 1) % ps.length) 0⟩ with
        | SynthResult.ok rest =>
            SynthResult.ok ((st.cur_wave, st.cur_phase, st.phase_offset) :: rest)
        | r => r)
    ∧ (∀ (fs : List ℚ) (ws : List Wave) (ps : List ℚ),
        nSteps fs ws (some ps) = max ps.length (max fs.length ws.length))
    ∧ (∀ (fs : List ℚ) (ws : List Wave) (ps : List ℚ),
        fs.length = 2 → ws.length = 3 → ps.length = 5 →
        nSteps fs ws (some ps) = 5
        ∧ freqAt fs 4 = Except.ok (fs.getD 0 0)
        ∧ waveAt ws 4 = Except.ok (ws.getD 1 Wave.Sine)
        ∧ phaseOffsetAt (some ps) 4 = Except.ok (ps.getD 4 0)) := by
  refine ⟨?_, ?_, ?_⟩
  · intro fs ws ps bp sr n fuel st hfs hws hps hlt hadv
    have hlf : fs.length ≠ 0 := by simpa [List.length_eq_zero] using hfs
    have hlw : ws.length ≠ 0 := by simpa [List.length_eq_zero] using hws
    have hlp : ps.length ≠ 0 := by simpa [List.length_eq_zero] using hps
    exact synthLoop_adv fs ws bp sr (some ps) n fuel st _ _ _ hlt hadv
      (by simp [freqAt, hlf]) (by simp [waveAt, hlw]) (by simp [phaseOffsetAt, hlp])
  · intro fs ws ps
    simp [nSteps]
  · intro fs ws ps h2 h3 h5
    have hl2 : fs.length ≠ 0 := by omega
    have hl3 : ws.length ≠ 0 := by omega
    have hl5 : ps.length ≠ 0 := by omega
    refine ⟨by simp [nSteps, h2, h3, h5], ?_, ?_, ?_⟩
    · simp [freqAt, hl2, h2]
    · simp [waveAt, hl3, h3]
    · simp [phaseOffsetAt, hl5, h5]

/-- Witness for C5 at concrete sequences of lengths 2, 3 and 5. -/
theorem independent_modulo_cycling_witness :
    nSteps [100, 200] [Wave.Sine, Wave.Pulse, Wave.Triangle]
        (some [0, 1/10, 1/5, 3/10, 2/5]) = 5
    ∧ freqAt [100, 200] 4 = Except.ok ([100, 200].getD 0 0)
    ∧ waveAt [Wave.Sine, Wave.Pulse, Wave.Triangle] 4
        = Except.ok ([Wave.Sine, Wave.Pulse, Wave.Triangle].getD 1 Wave.Sine)
    ∧ phaseOffsetAt (some [0, 1/10, 1/5, 3/10, 2/5]) 4
        = Except.ok ([(0 : ℚ), 1/10, 1/5, 3/10, 2/5].getD 4 0) :=
  independent_modulo_cycling.2.2 [100, 200] [Wave.Sine, Wave.Pulse, Wave.Triangle]
    [0, 1/10, 1/5, 3/10, 2/5] rfl rfl rfl

/-- Counterexample to C6 as stated: at `s = 3/41943035` (whose clipped,
scaled value is `3/5`) the written PCM value is the truncation `0`,
while round-to-nearest would give `1`. -/
theorem quantize24_not_round_cex :
    quantize24 (3/41943035) = 0 ∧ quantize24Spec (3/41943035) = 1
    ∧ quantize24 (3/41943035) ≠ quantize24Spec (3/41943035) := by
  have hclip : clipSample (3/41943035) = 3/41943035 := by
    rw [clipSample, min_eq_left (by norm_num), max_eq_left (by norm_num)]
  have hprod : clipSample (3/41943035) * 8388607 = 3/5 := by
    rw [hclip]
    norm_num
  have h0 : quantize24 (3/41943035) = 0 := by
    rw [quantize24, hprod, truncToward0, if_pos (by norm_num),
      show ⌊(3/5 : ℚ)⌋ = 0 by norm_num [Int.floor_eq_iff]]
    rw [i32Sat, min_eq_right (by norm_num), max_eq_right (by norm_num)]
  have h1 : quantize24Spec (3/41943035) = 1 := by
    have hprod2 : clipSample (3/41943035) * (2 ^ 23 - 1) = 3/5 := by
      rw [hclip]
      norm_num
    rw [quantize24Spec, hprod2, round_eq,
      show (3/5 : ℚ) + 1/2 = 11/10 by norm_num,
      show ⌊(11/10 : ℚ)⌋ = 1 by norm_num [Int.floor_eq_iff]]
  refine ⟨h0, h1, ?_⟩
  rw [h0, h1]
  norm_num

/-- Claim C6 amended: the 24-bit PCM value written per sample is the
truncation toward zero (Rust's `as i32`), not the round-to-nearest, of
`clip(s, -1, 1) * 8388607`; the `i32` saturation never fires, the value
always lies in `[-(2^23-1), 2^23-1]`, and `-1.0` still maps to
`-(2^23-1)`, not `-2^23`. -/
theorem quantize24_truncates (s : ℚ) :
    quantize24 s = truncToward0 (clipSample s * 8388607)
    ∧ quantize24 (-1) = -(2 ^ 23 - 1)
    ∧ -(2 ^ 23 - 1) ≤ quantize24 s ∧ quantize24 s ≤ 2 ^ 23 - 1 := by
  have hc1 : -1 ≤ clipSample s := le_max_right _ _
  have hc2 : clipSample s ≤ 1 := max_le ((min_le_right s 1)) (by norm_num)
  have hx1 : -8388607 ≤ clipSample s * 8388607 := by nlinarith
  have hx2 : clipSample s * 8388607 ≤ 8388607 := by nlinarith
  have htr1 : -8388607 ≤ truncToward0 (clipSample s * 8388607) := by
    rw [truncToward0]
    split
    next h =>
      have h0 : (0 : ℤ) ≤ ⌊clipSample s * 8388607⌋ := Int.floor_nonneg.mpr h
      omega
    next h =>
      have hle := Int.le_ceil (clipSample s * 8388607)
      have hcast : ((-8388607 : ℤ) : ℚ) ≤ (⌈clipSample s * 8388607⌉ : ℚ) := by
        push_cast
        linarith
      exact_mod_cast hcast
  have htr2 : truncToward0 (clipSample s * 8388607) ≤ 8388607 := by
    rw [truncToward0]
    split
    next h =>
      have hfl := Int.floor_le (clipSample s * 8388607)
      have hcast : ((⌊clipSample s * 8388607⌋ : ℤ) : ℚ) ≤ ((8388607 : ℤ) : ℚ) := by
        push_cast
        linarith
      exact_mod_cast hcast
    next h =>
      have hc0 : ⌈clipSample s * 8388607⌉ ≤ 0 := by
        apply Int.ceil_le.mpr
        push_cast
        linarith [not_le.mp h]
      omega
  have hsat : quantize24 s = truncToward0 (clipSample s * 8388607) := by
    rw [quantize24, i32Sat, min_eq_right (by omega), max_eq_right (by omega)]
  refine ⟨hsat, ?_, ?_, ?_⟩
  · have hclipneg : clipSample (-1) = -1 := by
      rw [clipSample, min_eq_left (by norm_num), max_eq_left (by norm_num)]
    rw [quantize24, hclipneg, show (-1 : ℚ) * 8388607 = -8388607 by norm_num,
      truncToward0, if_neg (by norm_num),
      show ⌈(-8388607 : ℚ)⌉ = -8388607 by exact_mod_cast Int.ceil_intCast (-8388607 : ℤ)]
    rw [i32Sat, min_eq_right (by norm_num), max_eq_right (by norm_num)]
    norm_num
  · rw [hsat]
    omega
  · rw [hsat]
    omega

theorem synth_single_48000 :
    synthesize [48000] [Wave.Sine] 1 48000 none 2
      = SynthResult.ok [(Wave.Sine, 0, 0)] := by
  have hinc : freq_to_phase_inc 48000 48000 = 1 := by
    norm_num [freq_to_phase_inc]
  have hs : synthesize [48000] [Wave.Sine] 1 48000 none 2
      = synthLoop [48000] [Wave.Sine] 1 48000 none 1 2 ⟨0, 0, 0, 1, Wave.Sine, 0⟩ := by
    simp [synthesize, phaseOffsetAt, nSteps, hinc]
  rw [hs, show (2 : ℕ) = 1 + 1 from rfl]
  rw [synthLoop_adv [48000] [Wave.Sine] 1 48000 none 1 1 ⟨0, 0, 0, 1, Wave.Sine, 0⟩
      48000 Wave.Sine 0 (by norm_num) (by left; norm_num)
      (by simp [freqAt]) (by simp [waveAt]) (by simp [phaseOffsetAt])]
  rw [synthLoop_done [48000] [Wave.Sine] 1 48000 none 1 1
      ⟨0 + 1, fmod ((0 : ℚ) + 1) 1, fmod ((0 : ℚ) + 1) 1,
        freq_to_phase_inc 48000 48000, Wave.Sine, 0⟩ (by norm_num)]

/-- Counterexample to C8 as stated: a present-but-empty phase-offset
sequence does not behave like an absent one — it panics with the
remainder-by-zero message before producing samples, while the absent
input succeeds. -/
theorem phase_offsets_empty_vs_absent_cex :
    synthesize [48000] [Wave.Sine] 1 48000 (some []) 2 = SynthResult.panic remainderMsg
    ∧ synthesize [48000] [Wave.Sine] 1 48000 none 2
      = SynthResult.ok [(Wave.Sine, 0, 0)] := by
  constructor
  · simp [synthesize, phaseOffsetAt]
  · exact synth_single_48000

/-- Claim C8 amended: an absent phase-offset input yields effective
offset 0 at every step and the step bound is the max of the frequency
and waveform lengths (the empty sequence contributes 0 to the bound in
both cases); but a present empty sequence does not behave the same as an
absent one: it causes a remainder-by-zero panic before any sample is
produced. -/
theorem phase_offsets_absent_default :
    (∀ i : ℕ, phaseOffsetAt none i = Except.ok 0)
    ∧ (∀ (fs : List ℚ) (ws : List Wave),
        nSteps fs ws none = max fs.length ws.length
        ∧ nSteps fs ws (some []) = max fs.length ws.length)
    ∧ (∀ (f0 : ℚ) (fs : List ℚ) (w0 : Wave) (ws : List Wave) (bp sr fuel : ℕ),
        synthesize (f0 :: fs) (w0 :: ws) bp sr (some []) fuel
          = SynthResult.panic remainderMsg) := by
  refine ⟨?_, ?_, ?_⟩
  · intro i
    simp [phaseOffsetAt]
  · intro fs ws
    constructor <;> simp [nSteps]
  · intro f0 fs w0 ws bp sr fuel
    simp [synthesize, phaseOffsetAt]

/-! ## Termination of the synthesis loop -/

theorem freqAt_ok (fs : List ℚ) (i : ℕ) (h : fs ≠ []) :
    ∃ f ∈ fs, freqAt fs i = Except.ok f := by
  have hl : fs.length ≠ 0 := by simpa [List.length_eq_zero] using h
  have hlt : i % fs.length < fs.length := Nat.mod_lt _ (Nat.pos_of_ne_zero hl)
  refine ⟨fs.getD (i % fs.length) 0, ?_, by simp [freqAt, hl]⟩
  rw [List.getD_eq_getElem fs 0 hlt]
  exact List.getElem_mem hlt

theorem waveAt_ok (ws : List Wave) (i : ℕ) (h : ws ≠ []) :
    ∃ w, waveAt ws i = Except.ok w := by
  have hl : ws.length ≠ 0 := by simpa [List.length_eq_zero] using h
  exact ⟨ws.getD (i % ws.length) Wave.Sine, by simp [waveAt, hl]⟩

theorem phaseOffsetAt_ok (po : Option (List ℚ)) (i : ℕ)
    (hpo : po = none ∨ ∃ p, po = some p ∧ p ≠ []) :
    ∃ q, phaseOffsetAt po i = Except.ok q := by
  rcases hpo with h | ⟨p, hp, hpne⟩
  · subst h
    exact ⟨0, rfl⟩
  · subst hp
    have hl : p.length ≠ 0 := by simpa [List.length_eq_zero] using hpne
    exact ⟨p.getD (i % p.length) 0, by simp [phaseOffsetAt, hl]⟩

theorem synthLoop_adv_step (fs : List ℚ) (ws : List Wave) (bp sr : ℕ)
    (po : Option (List ℚ)) (n : ℕ) (hfs : fs ≠ []) (hws : ws ≠ [])
    (hpo : po = none ∨ ∃ p, po = some p ∧ p ≠ []) (st : SynthState)
    (hlt : st.i < n)
    (hadv : advanceCond bp (st.cur_phase + st.cur_phase_inc) st.last_phase) :
    ∃ st' : SynthState, st'.i = st.i + 1
      ∧ (∃ f ∈ fs, st'.cur_phase_inc = freq_to_phase_inc f sr)
      ∧ ∀ (fuel : ℕ) (l : List Sample),
          synthLoop fs ws bp sr po n fuel st' = SynthResult.ok l →
          ∃ l', synthLoop fs ws bp sr po n (fuel + 1) st = SynthResult.ok l' := by
  obtain ⟨f, hfmem, hf⟩ := freqAt_ok fs (st.i + 1) hfs
  obtain ⟨w, hw⟩ := waveAt_ok ws (st.i + 1) hws
  obtain ⟨q, hq⟩ := phaseOffsetAt_ok po (st.i + 1) hpo
  refine ⟨⟨st.i + 1, fmod (st.cur_phase + st.cur_phase_inc) 1,
      fmod (st.cur_phase + st.cur_phase_inc) 1,
      freq_to_phase_inc f sr, w, q⟩, rfl, ⟨f, hfmem, rfl⟩, ?_⟩
  intro fuel l hl
  rw [synthLoop_adv fs ws bp sr po n fuel st f w q hlt hadv hf hw hq, hl]
  exact ⟨_, rfl⟩

theorem synthLoop_progress (fs : List ℚ) (ws : List Wave) (bp sr : ℕ)
    (po : Option (List ℚ)) (n : ℕ) (hfs : fs ≠ []) (hws : ws ≠ [])
    (hpo : po = none ∨ ∃ p, po = some p ∧ p ≠ []) :
    ∀ (j : ℕ) (st : SynthState), st.i < n →
      1 ≤ st.cur_phase + ((j : ℚ) + 1) * st.cur_phase_inc →
      ∃ (k : ℕ) (st' : SynthState), st'.i = st.i + 1
        ∧ (∃ f ∈ fs, st'.cur_phase_inc = freq_to_phase_inc f sr)
        ∧ ∀ (fuel : ℕ) (l : List Sample),
            synthLoop fs ws bp sr po n fuel st' = SynthResult.ok l →
            ∃ l', synthLoop fs ws bp sr po n (fuel + k) st = SynthResult.ok l' := by
  intro j
  induction j with
  | zero =>
    intro st hlt hph
    have hadv : advanceCond bp (st.cur_phase + st.cur_phase_inc) st.last_phase := by
      left
      have hq : st.cur_phase + (((0 : ℕ) : ℚ) + 1) * st.cur_phase_inc
          = st.cur_phase + st.cur_phase_inc := by
        push_cast
        ring
      linarith [hph, hq ▸ hph]
    obtain ⟨st', h1, h2, h3⟩ := synthLoop_adv_step fs ws bp sr po n hfs hws hpo st hlt hadv
    exact ⟨1, st', h1, h2, h3⟩
  | succ j ih =>
    intro st hlt hph
    by_cases hadv : advanceCond bp (st.cur_phase + st.cur_phase_inc) st.last_phase
    · obtain ⟨st', h1, h2, h3⟩ := synthLoop_adv_step fs ws bp sr po n hfs hws hpo st hlt hadv
      exact ⟨1, st', h1, h2, h3⟩
    · have hph2 : 1 ≤ (st.cur_phase + st.cur_phase_inc) + ((j : ℚ) + 1) * st.cur_phase_inc := by
        have hq : st.cur_phase + (((j + 1 : ℕ) : ℚ) + 1) * st.cur_phase_inc
            = (st.cur_phase + st.cur_phase_inc) + ((j : ℚ) + 1) * st.cur_phase_inc := by
          push_cast
          ring
        linarith [hq ▸ hph]
      obtain ⟨k, st', h1, h2, h3⟩ :=
        ih { st with cur_phase := st.cur_phase + st.cur_phase_inc } hlt hph2
      refine ⟨k + 1, st', h1, h2, ?_⟩
      intro fuel l hl
      obtain ⟨l', hl'⟩ := h3 fuel l hl
      have harith : fuel + (k + 1) = (fuel + k) + 1 := by omega
      rw [harith, synthLoop_noadv fs ws bp sr po n (fuel + k) st hlt hadv, hl']
      exact ⟨_, rfl⟩

theorem synthLoop_term (fs : List ℚ) (ws : List Wave) (bp sr : ℕ)
    (po : Option (List ℚ)) (n : ℕ) (hfs : fs ≠ []) (hws : ws ≠ [])
    (hpo : po = none ∨ ∃ p, po = some p ∧ p ≠ [])
    (hpos : ∀ f ∈ fs, 0 < f) (hsr : 0 < sr) :
    ∀ (m : ℕ) (st : SynthState), n ≤ st.i + m → 0 < st.cur_phase_inc →
      ∃ (fuel : ℕ) (l : List Sample),
        synthLoop fs ws bp sr po n fuel st = SynthResult.ok l := by
  intro m
  induction m with
  | zero =>
    intro st hn _
    exact ⟨0, [], synthLoop_done fs ws bp sr po n 0 st (by omega)⟩
  | succ m ih =>
    intro st hn hinc
    by_cases hlt : st.i < n
    · obtain ⟨t, ht⟩ := exists_nat_ge ((1 - st.cur_phase) / st.cur_phase_inc)
      have hph : 1 ≤ st.cur_phase + ((t : ℚ) + 1) * st.cur_phase_inc := by
        rw [div_le_iff₀ hinc] at ht
        have hexp : ((t : ℚ) + 1) * st.cur_phase_inc
            = (t : ℚ) * st.cur_phase_inc + st.cur_phase_inc := by
          ring
        linarith
      obtain ⟨k, st', h1, ⟨f, hfmem, hfinc⟩, h3⟩ :=
        synthLoop_progress fs ws bp sr po n hfs hws hpo t st hlt hph
      have hinc' : 0 < st'.cur_phase_inc := by
        rw [hfinc, freq_to_phase_inc]
        exact div_pos (hpos f hfmem) (by exact_mod_cast hsr)
      obtain ⟨fuel, l, hl⟩ := ih st' (by omega) hinc'
      obtain ⟨l', hl'⟩ := h3 fuel l hl
      exact ⟨fuel + k, l', hl'⟩
    · exact ⟨0, [], synthLoop_done fs ws bp sr po n 0 st (by omega)⟩

/-- Counterexample to C9 as stated: with non-empty positive frequencies
and non-empty waveforms but a present empty phase-offset sequence, the
run never returns normally — it panics (for every fuel) before the loop,
so `step_index` never reaches `n`. -/
theorem synthesize_some_empty_never_returns_cex :
    ¬ ∃ (fuel : ℕ) (l : List Sample),
      synthesize [100] [Wave.Sine] 1 48000 (some []) fuel = SynthResult.ok l := by
  rintro ⟨fuel, l, h⟩
  simp [synthesize, phaseOffsetAt] at h

/-- Claim C9 amended: for every input with non-empty frequencies and
waveforms, strictly positive frequencies, a positive sample rate, and a
phase-offset input that is absent or non-empty, the synthesis loop
terminates: there is a fuel bound under which `step_index` reaches `n`
and `synthesize` returns normally. -/
theorem synthesize_terminates (fs : List ℚ) (ws : List Wave) (bp sr : ℕ)
    (po : Option (List ℚ)) (hfs : fs ≠ []) (hws : ws ≠ [])
    (hpos : ∀ f ∈ fs, 0 < f) (hsr : 0 < sr)
    (hpo : po = none ∨ ∃ p, po = some p ∧ p ≠ []) :
    ∃ (fuel : ℕ) (l : List Sample),
      synthesize fs ws bp sr po fuel = SynthResult.ok l := by
  cases fs with
  | nil => exact absurd rfl hfs
  | cons f0 fs' =>
    cases ws with
    | nil => exact absurd rfl hws
    | cons w0 ws' =>
      obtain ⟨q, hq⟩ := phaseOffsetAt_ok po 0 hpo
      have hinc0 : (0 : ℚ) < freq_to_phase_inc f0 sr :=
        div_pos (hpos f0 (by simp)) (by exact_mod_cast hsr)
      obtain ⟨fuel, l, hl⟩ := synthLoop_term (f0 :: fs') (w0 :: ws') bp sr po
        (nSteps (f0 :: fs') (w0 :: ws') po) hfs hws hpo hpos hsr
        (nSteps (f0 :: fs') (w0 :: ws') po)
        ⟨0, 0, 0, freq_to_phase_inc f0 sr, w0, q⟩ (by omega) hinc0
      refine ⟨fuel, l, ?_⟩
      rw [synthesize, hq]
      exact hl

/-- Witness for C9 at a concrete positive-frequency input. -/
theorem synthesize_terminates_witness :
    ∃ (fuel : ℕ) (l : List Sample),
      synthesize [100] [Wave.Sine] 1 48000 none fuel = SynthResult.ok l :=
  synthesize_terminates [100] [Wave.Sine] 1 48000 none (by simp) (by simp)
    (by
      intro f hf
      simp only [List.mem_singleton] at hf
      rw [hf]
      norm_num)
    (by norm_num) (Or.inl rfl)

/-! ## Lower bound on the number of emitted samples -/

theorem synthLoop_length_ge (fs : List ℚ) (ws : List Wave) (bp sr : ℕ)
    (po : Option (List ℚ)) (n : ℕ) :
    ∀ (fuel : ℕ) (st : SynthState) (l : List Sample),
      synthLoop fs ws bp sr po n fuel st = SynthResult.ok l →
      n ≤ st.i + l.length := by
  intro fuel
  induction fuel with
  | zero =>
    intro st l h
    by_cases hlt : st.i < n
    · simp [synthLoop, hlt] at h
    · rw [synthLoop_done fs ws bp sr po n 0 st hlt] at h
      injection h with h
      subst h
      omega
  | succ fuel ih =>
    intro st l h
    by_cases hlt : st.i < n
    · by_cases hadv : advanceCond bp (st.cur_phase + st.cur_phase_inc) st.last_phase
      · cases hf : freqAt fs (st.i + 1) with
        | error e =>
          rw [show synthLoop fs ws bp sr po n (fuel + 1) st = SynthResult.panic e from by
            simp [synthLoop, hlt, hadv, hf]] at h
          exact absurd h (by simp)
        | ok f =>
          cases hw : waveAt ws (st.i + 1) with
          | error e =>
            rw [show synthLoop fs ws bp sr po n (fuel + 1) st = SynthResult.panic e from by
              simp [synthLoop, hlt, hadv, hf, hw]] at h
            exact absurd h (by simp)
          | ok w =>
            cases hq : phaseOffsetAt po (st.i + 1) with
            | error e =>
              rw [show synthLoop fs ws bp sr po n (fuel + 1) st = SynthResult.panic e from by
                simp [synthLoop, hlt, hadv, hf, hw, hq]] at h
              exact absurd h (by simp)
            | ok q =>
              rw [synthLoop_adv fs ws bp sr po n fuel st f w q hlt hadv hf hw hq] at h
              split at h
              next rest hrec =>
                injection h with h
                have hlen := ih _ rest hrec
                dsimp only at hlen
                subst h
                simp only [List.length_cons]
                omega
              next r hne =>
                exact ((hne l h).elim : n ≤ st.i + l.length)
      · rw [synthLoop_noadv fs ws bp sr po n fuel st hlt hadv] at h
        split at h
        next rest hrec =>
          injection h with h
          have hlen := ih _ rest hrec
          dsimp only at hlen
          subst h
          simp only [List.length_cons]
          omega
        next r hne =>
          exact ((hne l h).elim : n ≤ st.i + l.length)
    · rw [synthLoop_done fs ws bp sr po n (fuel + 1) st hlt] at h
      injection h with h
      subst h
      omega

/-- Claim C10: every loop iteration emits exactly one sample and advances
the step index by at most one, with exactly `n` advances in total; hence
whenever `synthesize` returns normally the output holds at least `n`
samples, and at least one, since `n ≥ 1` for the non-empty inputs a
normal return implies. -/
theorem synthesize_output_length (fs : List ℚ) (ws : List Wave)
    (bp sr fuel : ℕ) (po : Option (List ℚ)) (l : List Sample)
    (h : synthesize fs ws bp sr po fuel = SynthResult.ok l) :
    nSteps fs ws po ≤ l.length ∧ 1 ≤ nSteps fs ws po ∧ 1 ≤ l.length := by
  cases ws with
  | nil => simp [synthesize] at h
  | cons w0 ws' =>
    cases fs with
    | nil => simp [synthesize] at h
    | cons f0 fs' =>
      rw [synthesize] at h
      cases hq : phaseOffsetAt po 0 with
      | error e =>
        rw [hq] at h
        exact absurd h (by simp)
      | ok q =>
        rw [hq] at h
        have hlen := synthLoop_length_ge (f0 :: fs') (w0 :: ws') bp sr po
          (nSteps (f0 :: fs') (w0 :: ws') po) fuel
          ⟨0, 0, 0, freq_to_phase_inc f0 sr, w0, q⟩ l h
        dsimp only at hlen
        have hn : 1 ≤ nSteps (f0 :: fs') (w0 :: ws') po := by
          have h1 : (1 : ℕ) ≤ (f0 :: fs').length := by simp
          calc (1 : ℕ) ≤ (f0 :: fs').length := h1
            _ ≤ max (f0 :: fs').length (w0 :: ws').length := le_max_left _ _
            _ ≤ nSteps (f0 :: fs') (w0 :: ws') po := le_max_right _ _
        exact ⟨by omega, hn, by omega⟩

/-- Witness for C10 at a concrete normal run. -/
theorem synthesize_output_length_witness :
    nSteps [48000] [Wave.Sine] none ≤ [((Wave.Sine : Wave), (0 : ℚ), (0 : ℚ))].length
    ∧ 1 ≤ nSteps [48000] [Wave.Sine] none
    ∧ 1 ≤ [((Wave.Sine : Wave), (0 : ℚ), (0 : ℚ))].length :=
  synthesize_output_length [48000] [Wave.Sine] 1 48000 2 none
    [(Wave.Sine, 0, 0)] synth_single_48000
